import Mathlib

/-!
Shallow embedding of the Uranium operation stack
(src/UM/Operations/OperationStack.py) and of the byte-buffer decoders of
src/UM/Backend/Backend.py, with theorems checking the specification.

Modelling choices:
- A stack `Operation` is polymorphic in the source; the stack only reads
  its `_timestamp` and `_always_merge` attributes and calls `redo`, `undo`
  and `mergeWith`.  We model an operation as a record of the two read
  attributes plus an identity tag `oid`; the effect methods are modelled
  as trace events, and `mergeWith` as an external parameter
  `mw : Operation → Operation → Option Operation` (`none` = Python `None`).
- Timestamps are rationals (Python floats ordered by the usual order).
- Python list indexing and `del` are modelled faithfully, including the
  negative-index convention and the clamping of slice endpoints; an
  out-of-range index access is an `Option.none` (a raised IndexError).
- The non-blocking `self._lock.acquire(False)` in `push` is modelled by a
  boolean argument `lockAcquired`: `true` means the acquisition succeeded.
- `self.changed.emit()` and the calls `operation.redo()`,
  `operation.undo()`, `op1.mergeWith(op2)` are recorded as trace events.
- Bytes are lists of naturals below 256; a 32-bit float produced by
  `struct.unpack` is represented by its 32-bit little-endian bit pattern.
-/

namespace Uranium

/-- The two attributes of an operation that OperationStack reads, plus an
identity tag used to tell operations apart in the model. -/
structure Operation where
  timestamp : ℚ
  alwaysMerge : Bool
  oid : Nat
deriving DecidableEq

/-- Observable effects of the stack: calls into operations and the
`changed` signal emission. -/
inductive Event where
  | redoEv : Operation → Event
  | undoEv : Operation → Event
  | mergeWithEv : Operation → Operation → Event
  | changedEv : Event
deriving DecidableEq

/-- The mutable state of an OperationStack: `self._operations` and
`self._current_index`. -/
structure StackState where
  operations : List Operation
  currentIndex : Int
deriving DecidableEq

/-- `__init__`: empty list of operations, current index -1. -/
def initState : StackState := { operations := [], currentIndex := -1 }

/-- `_merge_window = 1.0`. -/
def mergeWindow : ℚ := 1

/-- Python `lst[i]` for an integer `i`: nonnegative indexes from the
front, negative indexes from the back, anything out of range raises
(modelled as `none`). -/
def pyGet {α : Type} (l : List α) (i : Int) : Option α :=
  if 0 ≤ i then l[i.toNat]?
  else if 0 ≤ i + l.length then l[(i + l.length).toNat]?
  else none

/-- Python `del lst[i]`: removes the element at (possibly negative) index
`i`; out of range raises (modelled as `none`). -/
def pyDelAt {α : Type} (l : List α) (i : Int) : Option (List α) :=
  if 0 ≤ i ∧ i < (l.length : Int) then
    some (l.take i.toNat ++ l.drop (i.toNat + 1))
  else if 0 ≤ i + (l.length : Int) ∧ i < 0 then
    some (l.take (i + l.length).toNat ++ l.drop ((i + l.length).toNat + 1))
  else none

/-- Clamping of a slice endpoint, as Python slicing does it. -/
def pySliceIdx (n : Nat) (i : Int) : Nat :=
  if i < 0 then (i + n).toNat else min i.toNat n

/-- Python `del lst[a:b]`: removes the elements at the clamped index
range; never raises. -/
def pyDelSlice {α : Type} (l : List α) (a b : Int) : List α :=
  l.take (pySliceIdx l.length a) ++ l.drop (max (pySliceIdx l.length a) (pySliceIdx l.length b))

/-- The tail of `_doMerge` from `merged = op1.mergeWith(op2)` on: call
`mergeWith` (recorded as an event); on a non-None result delete the entry
at `_current_index`, then the entry at `_current_index - 1`, decrement
`_current_index` and append the merged operation. -/
def doMergeAttempt (mw : Operation → Operation → Option Operation)
    (s : StackState) (op1 op2 : Operation) : Option (StackState × List Event) :=
  match mw op1 op2 with
  | some merged =>
    match pyDelAt s.operations s.currentIndex with
    | some l1 =>
      match pyDelAt l1 (s.currentIndex - 1) with
      | some l2 =>
        some ({ operations := l2 ++ [merged], currentIndex := s.currentIndex - 1 },
              [Event.mergeWithEv op1 op2])
      | none => none
    | none => none
  | none => some (s, [Event.mergeWithEv op1 op2])

/-- `_doMerge`: when at least two operations exist, read
`op1 = self._operations[self._current_index]` and
`op2 = self._operations[self._current_index - 1]`; if both are not
`_always_merge` and their timestamps differ by more than `_merge_window`,
return without merging; otherwise attempt the merge. -/
def doMerge (mw : Operation → Operation → Option Operation)
    (s : StackState) : Option (StackState × List Event) :=
  if 2 ≤ s.operations.length then
    match pyGet s.operations s.currentIndex,
          pyGet s.operations (s.currentIndex - 1) with
    | some op1, some op2 =>
      if op1.alwaysMerge = false ∧ op2.alwaysMerge = false then
        if mergeWindow < |op1.timestamp - op2.timestamp| then
          some (s, [])
        else
          doMergeAttempt mw s op1 op2
      else
        doMergeAttempt mw s op1 op2
    | _, _ => none
  else some (s, [])

/-- The truncation step of `push`: when `_current_index` is below the top,
`del self._operations[self._current_index + 1 : len(self._operations)]`. -/
def pushTruncate (s : StackState) : List Operation :=
  if s.currentIndex < (s.operations.length : Int) - 1 then
    pyDelSlice s.operations (s.currentIndex + 1) (s.operations.length : Int)
  else s.operations

/-- Steps 2 to 5 of `push`: truncate the redo tail, append the operation,
apply it (`operation.redo()`, traced by the caller) and advance
`_current_index` by one. -/
def pushApply (op : Operation) (s : StackState) : StackState :=
  { operations := pushTruncate s ++ [op], currentIndex := s.currentIndex + 1 }

/-- `push`: with `self._lock.acquire(False)` failed, return at once with
no effect; otherwise truncate, append, apply, advance, run `_doMerge`,
and emit `changed`. -/
def push (mw : Operation → Operation → Option Operation) (lockAcquired : Bool)
    (op : Operation) (s : StackState) : Option (StackState × List Event) :=
  if lockAcquired = false then
    some (s, [])
  else
    match doMerge mw (pushApply op s) with
    | some (s2, mergeEvents) =>
      some (s2, Event.redoEv op :: mergeEvents ++ [Event.changedEv])
    | none => none

/-- `undo`: when `0 <= _current_index < len(_operations)`, call `undo`
on the operation at `_current_index`, decrement the index and emit
`changed`; otherwise do nothing. -/
def undo (s : StackState) : StackState × List Event :=
  if h : 0 ≤ s.currentIndex ∧ s.currentIndex < (s.operations.length : Int) then
    ({ operations := s.operations, currentIndex := s.currentIndex - 1 },
     [Event.undoEv (s.operations.get ⟨s.currentIndex.toNat, by omega⟩),
      Event.changedEv])
  else
    (s, [])

/-- `redo`: with `n = _current_index + 1`, when `0 <= n < len(_operations)`,
call `redo` on the operation at `n`, increment the index and emit
`changed`; otherwise do nothing. -/
def redo (s : StackState) : StackState × List Event :=
  if h : 0 ≤ s.currentIndex + 1 ∧ s.currentIndex + 1 < (s.operations.length : Int) then
    ({ operations := s.operations, currentIndex := s.currentIndex + 1 },
     [Event.redoEv (s.operations.get ⟨(s.currentIndex + 1).toNat, by omega⟩),
      Event.changedEv])
  else
    (s, [])

/-- A sequence of uncontended pushes, threading the state. -/
def pushAll (mw : Operation → Operation → Option Operation)
    (ops : List Operation) (s : StackState) : Option StackState :=
  match ops with
  | [] => some s
  | op :: rest =>
    match push mw true op s with
    | some (s1, _) => pushAll mw rest s1
    | none => none

/-- The condition under which `_doMerge` returns early without calling
`mergeWith`: both operations are not `_always_merge` and their timestamps
differ by more than the merge window. -/
def mergeSkip (op1 op2 : Operation) : Prop :=
  op1.alwaysMerge = false ∧ op2.alwaysMerge = false ∧
    mergeWindow < |op1.timestamp - op2.timestamp|

instance (op1 op2 : Operation) : Decidable (mergeSkip op1 op2) := by
  unfold mergeSkip
  infer_instance

/-- Recognizes a `redo` call event. -/
def isRedoEv : Event → Bool
  | Event.redoEv _ => true
  | _ => false

/-- Recognizes a `mergeWith` call event. -/
def isMergeWithEv : Event → Bool
  | Event.mergeWithEv _ _ => true
  | _ => false

/-- The cursor invariant of the specification:
`-1 <= currentIndex <= len(operations) - 1`. -/
def StackInv (s : StackState) : Prop :=
  -1 ≤ s.currentIndex ∧ s.currentIndex ≤ (s.operations.length : Int) - 1

/-! Backend byte decoders. -/

/-- The little-endian 32-bit word starting at byte offset `j` of `data`:
the bit pattern of one float produced by `struct.unpack`. -/
def word32 (data : List Nat) (j : Nat) : Nat :=
  data.getD j 0 + 256 * data.getD (j + 1) 0 + 65536 * data.getD (j + 2) 0 +
    16777216 * data.getD (j + 3) 0

/-- `struct.unpack("fff", chunk)` on a 12-byte chunk, floats as bit
patterns. -/
def unpackFFF (chunk : List Nat) : Nat × Nat × Nat :=
  (word32 chunk 0, word32 chunk 4, word32 chunk 8)

/-- `struct.unpack("ffffff", chunk)` on a 24-byte chunk, floats as bit
patterns. -/
def unpackFFFFFF (chunk : List Nat) : Nat × Nat × Nat × Nat × Nat × Nat :=
  (word32 chunk 0, word32 chunk 4, word32 chunk 8,
   word32 chunk 12, word32 chunk 16, word32 chunk 20)

/-- The error message logged on a length mismatch. -/
def lengthErrorMsg : String := "Data length was incorrect for requested type"

/-- `Backend.convertBytesToVerticeList`: one triple of floats per 12-byte
record if the length is an exact multiple of 12; otherwise log an error
and return None.  The second component is the list of logged errors. -/
def convertBytesToVerticeList (data : List Nat) :
    Option (List (Nat × Nat × Nat)) × List String :=
  if data.length % 12 = 0 then
    (some ((List.range (data.length / 12)).map fun index =>
      unpackFFF ((data.drop (index * 12)).take 12)), [])
  else
    (none, [lengthErrorMsg])

/-- `Backend.convertBytesToVerticeWithNormalsList`: one 6-tuple of floats
per 24-byte record if the length is an exact multiple of 24; otherwise log
an error and return None. -/
def convertBytesToVerticeWithNormalsList (data : List Nat) :
    Option (List (Nat × Nat × Nat × Nat × Nat × Nat)) × List String :=
  if data.length % 24 = 0 then
    (some ((List.range (data.length / 24)).map fun index =>
      unpackFFFFFF ((data.drop (index * 24)).take 24)), [])
  else
    (none, [lengthErrorMsg])

/-! Concrete instances used to evaluate the theorems on closed inputs. -/

/-- A `mergeWith` implementation that always succeeds, returning the
more recent operation as the combined one. -/
def mwKeepTop : Operation → Operation → Option Operation := fun o1 _ => some o1

/-- A `mergeWith` implementation that always declines. -/
def mwNone : Operation → Operation → Option Operation := fun _ _ => none

/-- A concrete always-merge operation. -/
def cOpA : Operation := { timestamp := 0, alwaysMerge := true, oid := 0 }

/-- Another concrete always-merge operation. -/
def cOpB : Operation := { timestamp := 0, alwaysMerge := true, oid := 1 }

/-- A concrete time-gated operation with timestamp 0. -/
def wOp0 : Operation := { timestamp := 0, alwaysMerge := false, oid := 10 }

/-- A concrete time-gated operation with timestamp exactly one merge
window after `wOp0`. -/
def wOp1 : Operation := { timestamp := 1, alwaysMerge := false, oid := 11 }

/-- A concrete time-gated operation far outside the merge window. -/
def wOp5 : Operation := { timestamp := 5, alwaysMerge := false, oid := 12 }

/-- A one-operation stack with the cursor on its only entry. -/
def wStack1 : StackState := { operations := [wOp0], currentIndex := 0 }

/-- A two-operation stack whose cursor is below the top: one redo-tail
entry exists. -/
def wStack2 : StackState := { operations := [wOp0, wOp1], currentIndex := 0 }

/-! Helper lemmas about the Python list model. -/

lemma pyGet_nonneg {α : Type} (l : List α) (i : Int) (h : 0 ≤ i) :
    pyGet l i = l[i.toNat]? := by
  unfold pyGet
  rw [if_pos h]

lemma pyDelAt_inbounds {α : Type} (l : List α) (i : Int) (h1 : 0 ≤ i)
    (h2 : i < (l.length : Int)) :
    pyDelAt l i = some (l.take i.toNat ++ l.drop (i.toNat + 1)) := by
  unfold pyDelAt
  rw [if_pos ⟨h1, h2⟩]

lemma getElem_concat2_top {α : Type} (l : List α) (a b : α) :
    (l ++ [a, b])[l.length + 1]? = some b := by
  rw [List.getElem?_append_right (by omega)]
  simp

lemma getElem_concat2_prev {α : Type} (l : List α) (a b : α) :
    (l ++ [a, b])[l.length]? = some a := by
  rw [List.getElem?_append_right (le_refl _)]
  simp

/-- `_doMerge` on a stack of fewer than two operations does nothing. -/
lemma doMerge_short (mw : Operation → Operation → Option Operation)
    (s : StackState) (h : s.operations.length ≤ 1) :
    doMerge mw s = some (s, []) := by
  unfold doMerge
  rw [if_neg (by omega)]

/-- Characterization of `_doMerge` in the state it is reached in from
`push`: the just-pushed operation on top, its predecessor below, the
cursor on the top.  Either the time window check skips the merge, or
`mergeWith` decides: on `some m` the two top entries are removed, the
cursor drops by one and `m` is appended; on `none` nothing changes. -/
lemma doMerge_concat2 (mw : Operation → Operation → Option Operation)
    (l : List Operation) (op2 op : Operation) :
    doMerge mw { operations := l ++ [op2, op], currentIndex := (l.length : Int) + 1 } =
      if mergeSkip op op2 then
        some ({ operations := l ++ [op2, op], currentIndex := (l.length : Int) + 1 }, [])
      else
        match mw op op2 with
        | some m =>
          some ({ operations := l ++ [m], currentIndex := (l.length : Int) },
                [Event.mergeWithEv op op2])
        | none =>
          some ({ operations := l ++ [op2, op], currentIndex := (l.length : Int) + 1 },
                [Event.mergeWithEv op op2]) := by
  have hget1 : pyGet (l ++ [op2, op]) ((l.length : Int) + 1) = some op := by
    rw [pyGet_nonneg _ _ (by omega),
      show ((l.length : Int) + 1).toNat = l.length + 1 by omega]
    exact getElem_concat2_top l op2 op
  have hget2 : pyGet (l ++ [op2, op]) ((l.length : Int) + 1 - 1) = some op2 := by
    rw [pyGet_nonneg _ _ (by omega),
      show ((l.length : Int) + 1 - 1).toNat = l.length by omega]
    exact getElem_concat2_prev l op2 op
  have hsplit : l ++ [op2, op] = (l ++ [op2]) ++ [op] := by simp
  have hdel1 : pyDelAt (l ++ [op2, op]) ((l.length : Int) + 1) = some (l ++ [op2]) := by
    rw [pyDelAt_inbounds _ _ (by omega)
      (by simp only [List.length_append, List.length_cons, List.length_nil]; omega),
      show ((l.length : Int) + 1).toNat = l.length + 1 by omega, hsplit,
      show l.length + 1 = (l ++ [op2]).length by simp,
      List.take_left, List.drop_eq_nil_of_le (by simp), List.append_nil]
  have hdel2 : pyDelAt (l ++ [op2]) ((l.length : Int) + 1 - 1) = some l := by
    rw [pyDelAt_inbounds _ _ (by omega)
      (by simp only [List.length_append, List.length_cons, List.length_nil]; omega),
      show ((l.length : Int) + 1 - 1).toNat = l.length by omega,
      List.take_left, List.drop_eq_nil_of_le (by simp), List.append_nil]
  have hlen2 : 2 ≤ (l ++ [op2, op]).length := by
    simp only [List.length_append, List.length_cons, List.length_nil]
    omega
  by_cases hskip : mergeSkip op op2
  · rw [if_pos hskip]
    obtain ⟨hf1, hf2, ht⟩ := hskip
    simp only [doMerge, hget1, hget2, if_pos hlen2]
    rw [if_pos ⟨hf1, hf2⟩, if_pos ht]
  · rw [if_neg hskip]
    cases hmw : mw op op2 with
    | some m =>
      simp only [doMerge, doMergeAttempt, hget1, hget2, if_pos hlen2, hmw, hdel1, hdel2]
      have hbranch : ∀ u : StackState × List Event,
          (if op.alwaysMerge = false ∧ op2.alwaysMerge = false then
            if mergeWindow < |op.timestamp - op2.timestamp| then
              some ({ operations := l ++ [op2, op],
                      currentIndex := (l.length : Int) + 1 }, ([] : List Event))
            else some u
          else some u) = some u := by
        intro u
        by_cases hf : op.alwaysMerge = false ∧ op2.alwaysMerge = false
        · rw [if_pos hf, if_neg (fun ht => hskip ⟨hf.1, hf.2, ht⟩)]
        · rw [if_neg hf]
      rw [hbranch, show (l.length : Int) + 1 - 1 = (l.length : Int) from by ring]
    | none =>
      simp only [doMerge, doMergeAttempt, hget1, hget2, if_pos hlen2, hmw]
      by_cases hf : op.alwaysMerge = false ∧ op2.alwaysMerge = false
      · rw [if_pos hf, if_neg (fun ht => hskip ⟨hf.1, hf.2, ht⟩)]
      · rw [if_neg hf]

/-- With a cursor at least -1, the truncation step keeps exactly the
first `currentIndex + 1` entries (a no-op when the cursor is on top). -/
lemma pushTruncate_eq (s : StackState) (h1 : -1 ≤ s.currentIndex) :
    pushTruncate s = s.operations.take (s.currentIndex + 1).toNat := by
  unfold pushTruncate
  by_cases hc : s.currentIndex < (s.operations.length : Int) - 1
  · rw [if_pos hc]
    unfold pyDelSlice pySliceIdx
    rw [if_neg (by omega), if_neg (by omega),
      show ((s.operations.length : Int)).toNat = s.operations.length by omega,
      min_self,
      show min (s.currentIndex + 1).toNat s.operations.length
          = (s.currentIndex + 1).toNat by omega,
      show max (s.currentIndex + 1).toNat s.operations.length
          = s.operations.length by omega,
      List.drop_length, List.append_nil]
  · rw [if_neg hc, List.take_of_length_le (by omega)]

/-- Steps 2 to 5 of `push` on a stack whose cursor is on the top entry:
no truncation, the new operation lands on top, the cursor moves to it. -/
lemma pushApply_last_concat (op : Operation) (l : List Operation) (op2 : Operation) :
    pushApply op { operations := l ++ [op2], currentIndex := (l.length : Int) } =
      { operations := l ++ [op2, op], currentIndex := (l.length : Int) + 1 } := by
  unfold pushApply pushTruncate
  rw [if_neg (by simp only [List.length_append, List.length_cons, List.length_nil]; omega)]
  simp

/-- Full characterization of an uncontended `push` on a stack whose
cursor is on the top entry. -/
lemma push_last (mw : Operation → Operation → Option Operation)
    (op : Operation) (l : List Operation) (op2 : Operation) :
    push mw true op { operations := l ++ [op2], currentIndex := (l.length : Int) } =
      if mergeSkip op op2 then
        some ({ operations := l ++ [op2, op], currentIndex := (l.length : Int) + 1 },
              [Event.redoEv op, Event.changedEv])
      else
        match mw op op2 with
        | some m =>
          some ({ operations := l ++ [m], currentIndex := (l.length : Int) },
                [Event.redoEv op, Event.mergeWithEv op op2, Event.changedEv])
        | none =>
          some ({ operations := l ++ [op2, op], currentIndex := (l.length : Int) + 1 },
                [Event.redoEv op, Event.mergeWithEv op op2, Event.changedEv]) := by
  by_cases hskip : mergeSkip op op2
  · rw [if_pos hskip]
    unfold push
    rw [if_neg (by simp), pushApply_last_concat, doMerge_concat2, if_pos hskip]
    rfl
  · rw [if_neg hskip]
    unfold push
    rw [if_neg (by simp), pushApply_last_concat, doMerge_concat2, if_neg hskip]
    cases hmw : mw op op2 with
    | some m => rfl
    | none => rfl

/-- An uncontended `push` on the empty stack records and applies the one
operation. -/
lemma push_nil (mw : Operation → Operation → Option Operation) (op : Operation) :
    push mw true op initState =
      some ({ operations := [op], currentIndex := 0 },
            [Event.redoEv op, Event.changedEv]) := rfl

/-- A stack whose cursor sits on the top entry is either empty (the
initial state) or a list with a distinguished top entry. -/
lemma stack_last_cases (s : StackState)
    (hinv : s.currentIndex = (s.operations.length : Int) - 1) :
    s = initState ∨
    ∃ l op2, s = { operations := l ++ [op2], currentIndex := (l.length : Int) } := by
  obtain ⟨ops, ci⟩ := s
  rcases List.eq_nil_or_concat ops with h | ⟨l, op2, h⟩
  · subst h
    left
    have hci : ci = -1 := by simpa using hinv
    rw [hci]
    rfl
  · subst h
    right
    refine ⟨l, op2, ?_⟩
    have hci : ci = (l.length : Int) := by
      have hlen : (l.concat op2).length = l.length + 1 := by simp
      rw [hlen] at hinv
      push_cast at hinv
      omega
    rw [hci, List.concat_eq_append]

/-- From any state whose cursor sits on the top entry, `_doMerge`
succeeds, keeps the cursor on the top entry, never grows the stack, and
records at most one `mergeWith` call. -/
lemma doMerge_inv (mw : Operation → Operation → Option Operation)
    (t : StackState) (h : t.currentIndex = (t.operations.length : Int) - 1) :
    ∃ t2 evs, doMerge mw t = some (t2, evs) ∧
      t2.currentIndex = (t2.operations.length : Int) - 1 ∧
      t2.operations.length ≤ t.operations.length ∧
      (evs = [] ∨ ∃ o1 o2, evs = [Event.mergeWithEv o1 o2]) := by
  rcases stack_last_cases t h with rfl | ⟨l, op2, rfl⟩
  · exact ⟨_, _, doMerge_short mw _ (by simp [initState]), by simp [initState],
      le_refl _, Or.inl rfl⟩
  · rcases List.eq_nil_or_concat l with rfl | ⟨l', op3, rfl⟩
    · exact ⟨_, _, doMerge_short mw _ (by simp), by simp, le_refl _, Or.inl rfl⟩
    · rw [List.concat_eq_append,
        show (l' ++ [op3]) ++ [op2] = l' ++ [op3, op2] from by simp,
        show ((l' ++ [op3]).length : Int) = (l'.length : Int) + 1 from by simp,
        doMerge_concat2]
      by_cases hskip : mergeSkip op2 op3
      · rw [if_pos hskip]
        exact ⟨_, _, rfl, by simp; omega, le_refl _, Or.inl rfl⟩
      · rw [if_neg hskip]
        cases hmw : mw op2 op3 with
        | some m =>
          refine ⟨_, _, rfl, ?_, ?_, Or.inr ⟨_, _, rfl⟩⟩
          · simp
          · simp only [List.length_append, List.length_cons, List.length_nil]
            omega
        | none => exact ⟨_, _, rfl, by simp; omega, le_refl _, Or.inr ⟨_, _, rfl⟩⟩

/-- Steps 2 to 5 of `push` from any state satisfying the cursor
invariant leave the cursor on the new top entry and grow the stack by at
most one entry. -/
lemma pushApply_last (op : Operation) (s : StackState) (h : StackInv s) :
    (pushApply op s).currentIndex = ((pushApply op s).operations.length : Int) - 1 ∧
    (pushApply op s).operations.length ≤ s.operations.length + 1 := by
  obtain ⟨h1, h2⟩ := h
  unfold pushApply
  rw [pushTruncate_eq s h1]
  simp only [List.length_append, List.length_take, List.length_cons, List.length_nil]
  constructor
  · push_cast
    omega
  · omega

/-- From any state satisfying the cursor invariant, an uncontended
`push` completes: it returns a state whose cursor sits on the new top
entry, with at most one more operation than before, tracing one `redo`
call, at most one `mergeWith` call and one `changed` emission. -/
lemma push_inv_general (mw : Operation → Operation → Option Operation)
    (op : Operation) (s : StackState) (h : StackInv s) :
    ∃ s2 mevs, push mw true op s =
        some (s2, Event.redoEv op :: mevs ++ [Event.changedEv]) ∧
      s2.currentIndex = (s2.operations.length : Int) - 1 ∧
      s2.operations.length ≤ s.operations.length + 1 ∧
      (mevs = [] ∨ ∃ o1 o2, mevs = [Event.mergeWithEv o1 o2]) := by
  obtain ⟨hA, hB⟩ := pushApply_last op s h
  obtain ⟨t2, mevs, hdm, ht2, hlen, hshape⟩ := doMerge_inv mw (pushApply op s) hA
  refine ⟨t2, mevs, ?_, ht2, by omega, hshape⟩
  unfold push
  rw [if_neg (by simp), hdm]

/-- Iterating uncontended pushes from a state with the cursor on top
keeps the cursor on top and grows the stack by at most one per push. -/
lemma pushAll_inv (mw : Operation → Operation → Option Operation)
    (ops : List Operation) :
    ∀ s : StackState, s.currentIndex = (s.operations.length : Int) - 1 →
      ∃ s2, pushAll mw ops s = some s2 ∧
        s2.currentIndex = (s2.operations.length : Int) - 1 ∧
        s2.operations.length ≤ s.operations.length + ops.length := by
  induction ops with
  | nil => exact fun s h => ⟨s, rfl, h, by simp⟩
  | cons op rest ih =>
    intro s h
    obtain ⟨s1, mevs, hpush, h1, hlen1, -⟩ :=
      push_inv_general mw op s ⟨by omega, by omega⟩
    obtain ⟨s2, hrest, h2, hlen2⟩ := ih s1 h1
    refine ⟨s2, ?_, h2, by simp only [List.length_cons]; omega⟩
    unfold pushAll
    rw [hpush]
    exact hrest

/-- Claim C5: a `push` made while the mutation guard is already held
returns immediately with no effect: the state is unchanged, no `redo` is
invoked, nothing is appended, no `changed` notification is emitted and no
exception is raised (the result is `some`, with an empty event trace). -/
theorem push_contended_silent_drop
    (mw : Operation → Operation → Option Operation) (op : Operation)
    (s : StackState) : push mw false op s = some (s, []) := by
  simp [push]

/-- Claim C7: `undo` and `redo` never change the contents of the
operations sequence; they only move the cursor and invoke the affected
operation. -/
theorem undo_redo_preserve_operations (s : StackState) :
    (undo s).1.operations = s.operations ∧
    (redo s).1.operations = s.operations := by
  constructor
  · unfold undo
    split <;> rfl
  · unfold redo
    split <;> rfl

/-- Claim C10: both decoders map the empty buffer to the empty list (a
successful result, no logged error), because 0 is an exact multiple of
the record size. -/
theorem decoders_empty_buffer_success :
    convertBytesToVerticeList [] = (some [], []) ∧
    convertBytesToVerticeWithNormalsList [] = (some [], []) := by
  constructor <;> rfl

/-- Claim C1, counterexample: two uncontended pushes of always-merge
operations whose `mergeWith` succeeds leave `currentIndex = 0`, not
`N - 1 = 1`: after N pushes the cursor does not in general equal `N - 1`. -/
theorem pushN_cursor_counterexample :
    pushAll mwKeepTop [cOpA, cOpB] initState =
      some { operations := [cOpB], currentIndex := 0 } ∧
    ¬ ((0 : Int) = 2 - 1) := by
  constructor
  · rfl
  · decide

/-- Claim C1 (amended): for every sequence of N uncontended pushes from
the empty stack, all pushes complete, `currentIndex` ends equal to
`len(operations) - 1`, and `len(operations)` is at most N (merges may
shrink it, moving the cursor below `N - 1`). -/
theorem pushN_cursor_top_and_length_le
    (mw : Operation → Operation → Option Operation) (ops : List Operation) :
    ∃ s2, pushAll mw ops initState = some s2 ∧
      s2.currentIndex = (s2.operations.length : Int) - 1 ∧
      s2.operations.length ≤ ops.length := by
  obtain ⟨s2, hall, hinv, hlen⟩ :=
    pushAll_inv mw ops initState (by simp [initState])
  exact ⟨s2, hall, hinv, by simpa [initState] using hlen⟩

/-- Claim C2: on a push that leaves at least two operations, with `op`
the just-pushed operation and `op2` its predecessor, `mergeWith` is
attempted if and only if it is not the case that both operations have
`alwaysMerge` false and their timestamps differ by strictly more than
the merge window, whose value is 1; at the exact boundary the merge is
still attempted. -/
theorem push_mergeWith_attempt_iff
    (mw : Operation → Operation → Option Operation) (op : Operation)
    (s : StackState) (op2 : Operation)
    (hinv : s.currentIndex = (s.operations.length : Int) - 1)
    (hlast : s.operations.getLast? = some op2) :
    mergeWindow = 1 ∧
    ∃ s2 evs, push mw true op s = some (s2, evs) ∧
      (Event.mergeWithEv op op2 ∈ evs ↔
        ¬(op.alwaysMerge = false ∧ op2.alwaysMerge = false ∧
          mergeWindow < |op.timestamp - op2.timestamp|)) := by
  refine ⟨rfl, ?_⟩
  rcases stack_last_cases s hinv with rfl | ⟨l, op2x, rfl⟩
  · simp [initState] at hlast
  · have hop2 : op2x = op2 := by
      have h2 : (l ++ [op2x]).getLast? = some op2 := hlast
      rw [List.getLast?_concat] at h2
      exact Option.some.inj h2
    subst hop2
    rw [push_last]
    by_cases hskip : mergeSkip op op2x
    · rw [if_pos hskip]
      refine ⟨_, _, rfl, iff_of_false (by simp) (not_not_intro hskip)⟩
    · rw [if_neg hskip]
      cases hmw : mw op op2x with
      | some m => exact ⟨_, _, rfl, iff_of_true (by simp) hskip⟩
      | none => exact ⟨_, _, rfl, iff_of_true (by simp) hskip⟩

/-- Claim C2, witness: pushing a time-gated operation whose timestamp
differs from its predecessor by exactly the merge window still attempts
the merge. -/
theorem push_mergeWith_attempt_iff_witness :
    mergeWindow = 1 ∧
    ∃ s2 evs, push mwNone true wOp1 wStack1 = some (s2, evs) ∧
      (Event.mergeWithEv wOp1 wOp0 ∈ evs ↔
        ¬(wOp1.alwaysMerge = false ∧ wOp0.alwaysMerge = false ∧
          mergeWindow < |wOp1.timestamp - wOp0.timestamp|)) :=
  push_mergeWith_attempt_iff mwNone wOp1 wStack1 wOp0 (by decide) (by decide)

/-- Claim C3: on a push from a state with the cursor on top, at most one
merge occurs; when the merge step is eligible and `mergeWith` returns an
operation, the two top entries are removed, the cursor drops by exactly
one relative to the post-append state, and the merged operation is
appended, leaving exactly one entry fewer than before the merge; when
the merge is skipped or declined, state and cursor stay exactly as after
step 5 of the push (`pushApply`). -/
theorem push_merge_effect
    (mw : Operation → Operation → Option Operation) (op : Operation)
    (s : StackState)
    (hinv : s.currentIndex = (s.operations.length : Int) - 1) :
    ∃ s2 evs, push mw true op s = some (s2, evs) ∧
      (evs.filter isMergeWithEv).length ≤ 1 ∧
      (∀ op2 m, s.operations.getLast? = some op2 → ¬ mergeSkip op op2 →
        mw op op2 = some m →
        s2.operations = s.operations.dropLast ++ [m] ∧
        s2.currentIndex = (pushApply op s).currentIndex - 1 ∧
        s2.operations.length + 1 = (pushApply op s).operations.length) ∧
      (∀ op2, s.operations.getLast? = some op2 →
        mergeSkip op op2 ∨ mw op op2 = none →
        s2 = pushApply op s) ∧
      (s.operations = [] → s2 = pushApply op s) := by
  rcases stack_last_cases s hinv with rfl | ⟨l, op2x, rfl⟩
  · refine ⟨_, _, push_nil mw op, by simp [isMergeWithEv], ?_, ?_, ?_⟩
    · intro op2 m hlast
      simp [initState] at hlast
    · intro op2 hlast
      simp [initState] at hlast
    · intro h0
      rfl
  · have hlastx : (l ++ [op2x]).getLast? = some op2x := List.getLast?_concat l
    rw [push_last]
    by_cases hskip : mergeSkip op op2x
    · rw [if_pos hskip]
      refine ⟨_, _, rfl, by simp [isMergeWithEv], ?_, ?_, ?_⟩
      · intro op2 m hlast hns hmw
        have hl2 : (l ++ [op2x]).getLast? = some op2 := hlast
        rw [hlastx] at hl2
        cases Option.some.inj hl2
        exact absurd hskip hns
      · intro op2 hlast hor
        rw [pushApply_last_concat]
      · intro h0
        exact absurd h0 (by simp)
    · rw [if_neg hskip]
      cases hmw : mw op op2x with
      | some m =>
        refine ⟨_, _, rfl, by simp [isMergeWithEv], ?_, ?_, ?_⟩
        · intro op2 m2 hlast hns hmw2
          have hl2 : (l ++ [op2x]).getLast? = some op2 := hlast
          rw [hlastx] at hl2
          cases Option.some.inj hl2
          rw [hmw] at hmw2
          cases Option.some.inj hmw2
          rw [pushApply_last_concat]
          refine ⟨by simp [List.dropLast_concat], by ring, ?_⟩
          simp only [List.length_append, List.length_cons, List.length_nil]
        · intro op2 hlast hor
          have hl2 : (l ++ [op2x]).getLast? = some op2 := hlast
          rw [hlastx] at hl2
          cases Option.some.inj hl2
          rcases hor with hor | hor
          · exact absurd hor hskip
          · rw [hmw] at hor
            exact absurd hor (by simp)
        · intro h0
          exact absurd h0 (by simp)
      | none =>
        refine ⟨_, _, rfl, by simp [isMergeWithEv], ?_, ?_, ?_⟩
        · intro op2 m2 hlast hns hmw2
          have hl2 : (l ++ [op2x]).getLast? = some op2 := hlast
          rw [hlastx] at hl2
          cases Option.some.inj hl2
          rw [hmw] at hmw2
          exact absurd hmw2 (by simp)
        · intro op2 hlast hor
          rw [pushApply_last_concat]
        · intro h0
          exact absurd h0 (by simp)

/-- Claim C3, witness: an eligible, succeeding merge on a concrete push
is traced at most once. -/
theorem push_merge_effect_witness :
    ∃ s2 evs, push mwKeepTop true wOp1 wStack1 = some (s2, evs) ∧
      (evs.filter isMergeWithEv).length ≤ 1 := by
  obtain ⟨s2, evs, hp, hcount, -, -, -⟩ :=
    push_merge_effect mwKeepTop wOp1 wStack1 (by decide)
  exact ⟨s2, evs, hp, hcount⟩

/-- Claim C4: an uncontended push on a stack with a redo tail discards
every entry after the cursor before appending, leaving exactly
`currentIndex + 1` old entries in front of the new operation; the push
then invokes `redo` exactly once, on the pushed operation, and ends with
the cursor on the new top entry. -/
theorem push_truncates_redo_tail
    (mw : Operation → Operation → Option Operation) (op : Operation)
    (s : StackState) (h1 : -1 ≤ s.currentIndex)
    (h2 : s.currentIndex < (s.operations.length : Int) - 1) :
    (pushApply op s).operations =
      s.operations.take (s.currentIndex + 1).toNat ++ [op] ∧
    ((pushApply op s).operations.length : Int) = (s.currentIndex + 1) + 1 ∧
    (pushApply op s).currentIndex = ((pushApply op s).operations.length : Int) - 1 ∧
    ∃ s2 evs, push mw true op s = some (s2, evs) ∧
      evs.filter isRedoEv = [Event.redoEv op] ∧
      s2.currentIndex = (s2.operations.length : Int) - 1 := by
  refine ⟨?_, ?_, (pushApply_last op s ⟨h1, by omega⟩).1, ?_⟩
  · unfold pushApply
    rw [pushTruncate_eq s h1]
  · unfold pushApply
    rw [pushTruncate_eq s h1]
    simp only [List.length_append, List.length_take, List.length_cons, List.length_nil]
    push_cast
    omega
  · obtain ⟨s2, mevs, hp, hinv2, hlen2, hshape⟩ :=
      push_inv_general mw op s ⟨h1, by omega⟩
    refine ⟨s2, _, hp, ?_, hinv2⟩
    rcases hshape with rfl | ⟨o1, o2, rfl⟩
    · simp [isRedoEv]
    · simp [isRedoEv]

/-- Claim C4, witness: pushing onto a concrete stack with one redo-tail
entry keeps exactly `currentIndex + 1` old entries before the new one. -/
theorem push_truncates_redo_tail_witness :
    (pushApply wOp5 wStack2).operations =
      wStack2.operations.take (wStack2.currentIndex + 1).toNat ++ [wOp5] :=
  (push_truncates_redo_tail mwNone wOp5 wStack2 (by decide) (by decide)).1

/-- Claim C6: the cursor invariant `-1 <= currentIndex <=
len(operations) - 1` holds in the initial state and is preserved by
every completed push, undo and redo; moreover a completed uncontended
push always leaves `currentIndex = len(operations) - 1`, never a redo
tail. -/
theorem stack_invariant_preserved
    (mw : Operation → Operation → Option Operation) (op : Operation)
    (s : StackState) (h : StackInv s) :
    StackInv initState ∧
    (∃ s2 evs, push mw true op s = some (s2, evs) ∧ StackInv s2 ∧
      s2.currentIndex = (s2.operations.length : Int) - 1) ∧
    StackInv (undo s).1 ∧ StackInv (redo s).1 := by
  obtain ⟨hA, hB⟩ := h
  refine ⟨⟨by norm_num [initState], by norm_num [initState]⟩, ?_, ?_, ?_⟩
  · obtain ⟨s2, mevs, hp, hinv2, -, -⟩ := push_inv_general mw op s ⟨hA, hB⟩
    exact ⟨s2, _, hp, ⟨by omega, by omega⟩, hinv2⟩
  · unfold undo
    split
    · exact ⟨by simp; omega, by simp; omega⟩
    · exact ⟨hA, hB⟩
  · unfold redo
    split
    · exact ⟨by simp; omega, by simp; omega⟩
    · exact ⟨hA, hB⟩

/-- Claim C6, witness: the invariant is preserved on a concrete
one-operation stack. -/
theorem stack_invariant_preserved_witness :
    StackInv initState ∧
    (∃ s2 evs, push mwNone true wOp1 wStack1 = some (s2, evs) ∧ StackInv s2 ∧
      s2.currentIndex = (s2.operations.length : Int) - 1) ∧
    StackInv (undo wStack1).1 ∧ StackInv (redo wStack1).1 :=
  stack_invariant_preserved mwNone wOp1 wStack1 ⟨by decide, by decide⟩

/-- Claim C8: `undo` with a negative or out-of-bounds cursor is a
no-op — no operation is invoked, state unchanged, no notification, no
exception — and likewise `redo` when `currentIndex + 1` is out of
bounds; for both, the `changed` notification fires exactly when the call
actually changed the state. -/
theorem undo_redo_noop_and_notify (s : StackState) :
    ((s.currentIndex < 0 ∨ (s.operations.length : Int) ≤ s.currentIndex) →
      undo s = (s, [])) ∧
    ((s.currentIndex + 1 < 0 ∨ (s.operations.length : Int) ≤ s.currentIndex + 1) →
      redo s = (s, [])) ∧
    (Event.changedEv ∈ (undo s).2 ↔ (undo s).1 ≠ s) ∧
    (Event.changedEv ∈ (redo s).2 ↔ (redo s).1 ≠ s) := by
  refine ⟨?_, ?_, ?_, ?_⟩
  · intro hc
    unfold undo
    rw [dif_neg (by omega)]
  · intro hc
    unfold redo
    rw [dif_neg (by omega)]
  · unfold undo
    split
    · refine iff_of_true (by simp) (fun he => ?_)
      have hci := congrArg StackState.currentIndex he
      simp at hci
    · exact iff_of_false (by simp) (by simp)
  · unfold redo
    split
    · refine iff_of_true (by simp) (fun he => ?_)
      have hci := congrArg StackState.currentIndex he
      simp at hci
    · exact iff_of_false (by simp) (by simp)

/-- Reading into a 12- or 24-byte chunk cut out of the buffer is reading
the buffer at the shifted offset. -/
lemma getD_drop_take (data : List Nat) (k m t : Nat) (ht : t < m) :
    ((data.drop k).take m).getD t 0 = data.getD (k + t) 0 := by
  simp only [List.getD_eq_getD_get?, List.get?_eq_getElem?]
  rw [List.getElem?_take_of_lt ht, List.getElem?_drop]

/-- A 32-bit word read inside a chunk equals the word read in the whole
buffer at the shifted offset. -/
lemma word32_drop_take (data : List Nat) (k m j : Nat) (hm : j + 3 < m) :
    word32 ((data.drop k).take m) j = word32 data (k + j) := by
  unfold word32
  rw [getD_drop_take data k m j (by omega),
      getD_drop_take data k m (j + 1) (by omega),
      getD_drop_take data k m (j + 2) (by omega),
      getD_drop_take data k m (j + 3) (by omega),
      show k + (j + 1) = k + j + 1 from by ring,
      show k + (j + 2) = k + j + 2 from by ring,
      show k + (j + 3) = k + j + 3 from by ring]

/-- Behaviour of the 3-float decoder: None with a logged error exactly
when the length is not a multiple of 12; otherwise one triple per
consecutive 12-byte record. -/
lemma convert3_spec (data : List Nat) :
    ((convertBytesToVerticeList data).1 = none ↔ ¬ (12 ∣ data.length)) ∧
    ((convertBytesToVerticeList data).2 = [lengthErrorMsg] ↔ ¬ (12 ∣ data.length)) ∧
    (∀ l, (convertBytesToVerticeList data).1 = some l →
      l.length * 12 = data.length ∧
      ∀ i, i < l.length →
        l[i]? = some (word32 data (i * 12), word32 data (i * 12 + 4),
          word32 data (i * 12 + 8))) := by
  by_cases hmod : data.length % 12 = 0
  · have hdvd : 12 ∣ data.length := by omega
    unfold convertBytesToVerticeList
    rw [if_pos hmod]
    refine ⟨iff_of_false (by simp) (not_not_intro hdvd),
            iff_of_false (by simp [lengthErrorMsg]) (not_not_intro hdvd), ?_⟩
    intro l hl
    have hleq : l = (List.range (data.length / 12)).map
        (fun index => unpackFFF ((data.drop (index * 12)).take 12)) :=
      (Option.some.inj hl).symm
    subst hleq
    constructor
    · simp only [List.length_map, List.length_range]
      exact Nat.div_mul_cancel hdvd
    · intro i hi
      simp only [List.length_map, List.length_range] at hi
      rw [List.getElem?_map, List.getElem?_range hi]
      simp only [Option.map_some']
      unfold unpackFFF
      rw [word32_drop_take data (i * 12) 12 0 (by omega),
          word32_drop_take data (i * 12) 12 4 (by omega),
          word32_drop_take data (i * 12) 12 8 (by omega),
          Nat.add_zero]
  · have hndvd : ¬ (12 ∣ data.length) := by omega
    unfold convertBytesToVerticeList
    rw [if_neg hmod]
    refine ⟨iff_of_true rfl hndvd, iff_of_true rfl hndvd, ?_⟩
    intro l hl
    exact absurd hl (by simp)

/-- Behaviour of the 6-float decoder: None with a logged error exactly
when the length is not a multiple of 24; otherwise one 6-tuple per
consecutive 24-byte record. -/
lemma convert6_spec (data : List Nat) :
    ((convertBytesToVerticeWithNormalsList data).1 = none ↔ ¬ (24 ∣ data.length)) ∧
    ((convertBytesToVerticeWithNormalsList data).2 = [lengthErrorMsg] ↔ ¬ (24 ∣ data.length)) ∧
    (∀ l, (convertBytesToVerticeWithNormalsList data).1 = some l →
      l.length * 24 = data.length ∧
      ∀ i, i < l.length →
        l[i]? = some (word32 data (i * 24), word32 data (i * 24 + 4),
          word32 data (i * 24 + 8), word32 data (i * 24 + 12),
          word32 data (i * 24 + 16), word32 data (i * 24 + 20))) := by
  by_cases hmod : data.length % 24 = 0
  · have hdvd : 24 ∣ data.length := by omega
    unfold convertBytesToVerticeWithNormalsList
    rw [if_pos hmod]
    refine ⟨iff_of_false (by simp) (not_not_intro hdvd),
            iff_of_false (by simp [lengthErrorMsg]) (not_not_intro hdvd), ?_⟩
    intro l hl
    have hleq : l = (List.range (data.length / 24)).map
        (fun index => unpackFFFFFF ((data.drop (index * 24)).take 24)) :=
      (Option.some.inj hl).symm
    subst hleq
    constructor
    · simp only [List.length_map, List.length_range]
      exact Nat.div_mul_cancel hdvd
    · intro i hi
      simp only [List.length_map, List.length_range] at hi
      rw [List.getElem?_map, List.getElem?_range hi]
      simp only [Option.map_some']
      unfold unpackFFFFFF
      rw [word32_drop_take data (i * 24) 24 0 (by omega),
          word32_drop_take data (i * 24) 24 4 (by omega),
          word32_drop_take data (i * 24) 24 8 (by omega),
          word32_drop_take data (i * 24) 24 12 (by omega),
          word32_drop_take data (i * 24) 24 16 (by omega),
          word32_drop_take data (i * 24) 24 20 (by omega),
          Nat.add_zero]
  · have hndvd : ¬ (24 ∣ data.length) := by omega
    unfold convertBytesToVerticeWithNormalsList
    rw [if_neg hmod]
    refine ⟨iff_of_true rfl hndvd, iff_of_true rfl hndvd, ?_⟩
    intro l hl
    exact absurd hl (by simp)

/-- Claim C9: each decoder returns no result and logs exactly one error
when the buffer length is not an exact multiple of its record size (12,
respectively 24, bytes), and otherwise returns one tuple per record,
each component being the 32-bit float bit pattern unpacked from the
corresponding consecutive bytes of the buffer. -/
theorem decoders_record_layout (data : List Nat) :
    (((convertBytesToVerticeList data).1 = none ↔ ¬ (12 ∣ data.length)) ∧
     ((convertBytesToVerticeList data).2 = [lengthErrorMsg] ↔ ¬ (12 ∣ data.length)) ∧
     (∀ l, (convertBytesToVerticeList data).1 = some l →
       l.length * 12 = data.length ∧
       ∀ i, i < l.length →
         l[i]? = some (word32 data (i * 12), word32 data (i * 12 + 4),
           word32 data (i * 12 + 8)))) ∧
    (((convertBytesToVerticeWithNormalsList data).1 = none ↔ ¬ (24 ∣ data.length)) ∧
     ((convertBytesToVerticeWithNormalsList data).2 = [lengthErrorMsg] ↔ ¬ (24 ∣ data.length)) ∧
     (∀ l, (convertBytesToVerticeWithNormalsList data).1 = some l →
       l.length * 24 = data.length ∧
       ∀ i, i < l.length →
         l[i]? = some (word32 data (i * 24), word32 data (i * 24 + 4),
           word32 data (i * 24 + 8), word32 data (i * 24 + 12),
           word32 data (i * 24 + 16), word32 data (i * 24 + 20)))) :=
  ⟨convert3_spec data, convert6_spec data⟩

end Uranium
